import Mathlib

/-!
Shallow embedding of the docs-rag-mcp repository (TypeScript) in Lean 4.

Strings are modelled as `List Char` where structural reasoning is needed
(the chunker of `scripts/index-docs.ts`), and as Lean `String` for the
server-side handlers of `src/server/mcp.ts`, whose claims only compare
messages for equality.  JavaScript numbers are modelled as `Int`/`Nat`
(none of the verified claims depends on floating-point rounding).
-/

namespace DocsRag

/-! ## Chunker (`scripts/index-docs.ts`)

`chunkText` splits on the regex `(?<=[.!?])\s+` and greedily accumulates
sentences.  We model the JavaScript string as `List Char`; `isJsWs` is the
character class `\s` of JavaScript regular expressions. -/

def isJsWs (c : Char) : Bool :=
  (c == ' ') || (c == '\t') || (c == '\n') || (c == '\r') ||
  (c.toNat == 11) || (c.toNat == 12) || (c.toNat == 0xa0) || (c.toNat == 0x1680) ||
  (Nat.ble 0x2000 c.toNat && Nat.ble c.toNat 0x200a) ||
  (c.toNat == 0x2028) || (c.toNat == 0x2029) || (c.toNat == 0x202f) ||
  (c.toNat == 0x205f) || (c.toNat == 0x3000) || (c.toNat == 0xfeff)

def isSentencePunct (c : Char) : Bool :=
  (c == '.') || (c == '!') || (c == '?')

def headIsWs : List Char → Bool
  | [] => false
  | c :: _ => isJsWs c

/-- `text.split(/(?<=[.!?])\s+/)`: a separator is a maximal whitespace run
immediately preceded by `.`, `!` or `?`.  The boolean flag records that we
are inside such a run (the lookbehind already succeeded). -/
def splitGo : Bool → List Char → List Char → List (List Char)
  | _, [], acc => [acc.reverse]
  | skipping, c :: rest, acc =>
    if skipping && isJsWs c then splitGo true rest acc
    else if isSentencePunct c && headIsWs rest then
      (c :: acc).reverse :: splitGo true rest []
    else splitGo false rest (c :: acc)

def splitSentences (t : List Char) : List (List Char) :=
  splitGo false t []

def CHUNK_SIZE : Nat := 1000

/-- Declared in the source (`const CHUNK_OVERLAP = 200`) but never used by
`chunkText`. -/
def CHUNK_OVERLAP : Nat := 200

/-- JavaScript `String.prototype.trim` applied from the right only. -/
def trimEnd (l : List Char) : List Char :=
  (l.reverse.dropWhile isJsWs).reverse

/-- JavaScript `String.prototype.trim`. -/
def jsTrim (l : List Char) : List Char :=
  (trimEnd l).dropWhile isJsWs

/-- The loop body of `chunkText` over the sentence list; `cur` is
`currentChunk`.  The final `if cur = []` models JS string truthiness of
`if (currentChunk)`. -/
def chunkAux : List (List Char) → List Char → List (List Char)
  | [], cur => if cur = [] then [] else [jsTrim cur]
  | s :: rest, cur =>
    if CHUNK_SIZE < cur.length + s.length then jsTrim cur :: chunkAux rest s
    else chunkAux rest (cur ++ [' '] ++ s)

def chunkText (t : List Char) : List (List Char) :=
  chunkAux (splitSentences t) []

/-- Join a block of sentences with single spaces (the way `chunkText`
accumulates `currentChunk += ' ' + sentence`). -/
def joinSp : List (List Char) → List Char
  | [] => []
  | [s] => s
  | s :: s' :: rest => s ++ [' '] ++ joinSp (s' :: rest)

/-- Length of the longest sentence of the input. -/
def maxSentLen (t : List Char) : Nat :=
  ((splitSentences t).map List.length).foldr max 0

/-! ## Markdown text extraction (`extractTextFromMarkdown`)

The `marked` lexer is external; we model its token stream abstractly.  The
source only distinguishes `paragraph`, `heading` and `list` tokens (a list
token carries its items' texts); every other token type falls into the
`else ''` branch, modelled by `other`. -/

inductive MToken where
  | paragraph (text : List Char)
  | heading (text : List Char)
  | list (items : List (List Char))
  | other
  deriving DecidableEq

/-- Join with a single newline (`Array.prototype.join('\n')`). -/
def joinNl : List (List Char) → List Char
  | [] => []
  | [s] => s
  | s :: s' :: rest => s ++ ['\n'] ++ joinNl (s' :: rest)

def tokenText : MToken → List Char
  | .paragraph t => t
  | .heading t => t
  | .list items => joinNl items
  | .other => []

/-- `tokens.map(token => ...).join('\n')` from the source: note that every
token participates in the join, also the ones mapped to `''`. -/
def extractTextFromMarkdown (tokens : List MToken) : List Char :=
  joinNl (tokens.map tokenText)

/-- Split a text on every newline character (inverse view of `joinNl`,
used to state what `extractTextFromMarkdown` produces line by line). -/
def splitNl : List Char → List (List Char)
  | [] => [[]]
  | c :: rest =>
    if c = '\n' then [] :: splitNl rest
    else match splitNl rest with
      | [] => [[c]]
      | l :: ls => (c :: l) :: ls

/-! ## Indexing (`processFile` of `scripts/index-docs.ts`)

`processFile` reads a file, extracts and chunks the text, embeds every
chunk, and upserts `(id, vector, payload)` points with
`id = filePath + '-' + i`.  File reading, front-matter parsing, the
`marked` lexer and the embedding provider are external: the body token
stream, the title, the timestamp (`new Date().toISOString()`) and the
embedding function are inputs of the model. -/

structure ChunkMetadata where
  path : String
  sectionName : String  -- `section` in the source; `section` is a Lean keyword
  title : String
  lastUpdated : String
  url : String
  deriving DecidableEq

structure DocPoint where
  id : String
  vector : List Int
  content : List Char
  metadata : ChunkMetadata
  deriving DecidableEq

def GITHUB_BASE : String :=
  "https://github.com/jito-foundation/jito-omnidocs/blob/master/"

/-- `getGitHubUrl` of the source, over the path already made relative. -/
def getGitHubUrl (relPath : String) : String :=
  GITHUB_BASE ++ relPath

/-- The pure core of `processFile`: the list of points it upserts.
`body` is the Markdown body token stream (front matter removed),
`now` the run's timestamp, `emb` the embedding provider's response. -/
def processFilePoints (filePath relPath sect title now : String)
    (body : List MToken) (emb : List Char → List Int) : List DocPoint :=
  let chunks := chunkText (extractTextFromMarkdown body)
  (List.range chunks.length).map fun i =>
    { id := filePath ++ "-" ++ toString i
      vector := emb (chunks.getD i [])
      content := chunks.getD i []
      metadata :=
        { path := relPath
          sectionName := sect
          title := title
          lastUpdated := now
          url := getGitHubUrl relPath } }

/-- Modelled from the spec: the vector store is an external collaborator;
`upsert` writes each point and "an id that already exists is fully
overwritten (last write wins)" (spec §4.4, §6). -/
def upsertOne (store : List DocPoint) (p : DocPoint) : List DocPoint :=
  if store.any (fun q => q.id = p.id) then
    store.map (fun q => if q.id = p.id then p else q)
  else store ++ [p]

def upsertBatch (store : List DocPoint) (ps : List DocPoint) : List DocPoint :=
  ps.foldl upsertOne store

/-- The content the store holds under an id (first entry with that id). -/
def findContent (store : List DocPoint) (pid : String) : Option (List Char) :=
  (store.find? (fun q => q.id = pid)).map (fun q => q.content)

/-! ## Search tool handlers (`src/server/mcp.ts`)

The file contains two server variants, each registering a `search` tool.
External calls (embedding, Qdrant search, Jina rerank fetch) are modelled
by an environment recording each call's outcome; a thrown JavaScript
`Error` is modelled by the `.error`/failure constructors carrying
`error.message`. -/

structure SearchDocMetadata where
  path : String
  sectionName : String
  title : String
  lastUpdated : String
  deriving DecidableEq

def defaultSearchMetadata : SearchDocMetadata :=
  { path := "", sectionName := "", title := "", lastUpdated := "" }

structure QdrantDocPayload where
  content : String
  metadata : SearchDocMetadata
  deriving DecidableEq

structure QdrantSearchHit where
  score : Int
  payload : Option QdrantDocPayload
  deriving DecidableEq

structure SearchResultM where
  content : String
  score : Int
  metadata : SearchDocMetadata
  deriving DecidableEq

/-- The `searchResults.map(...)` formatting step shared by both variants
(`result.payload?.content || ""`, `result.payload?.metadata || {...}`). -/
def toSearchResult (h : QdrantSearchHit) : SearchResultM :=
  { content := match h.payload with | some p => p.content | none => ""
    score := h.score
    metadata := match h.payload with | some p => p.metadata | none => defaultSearchMetadata }

def defaultSearchResult : SearchResultM :=
  { content := "", score := 0, metadata := defaultSearchMetadata }

structure JinaResult where
  index : Nat
  relevance_score : Int
  deriving DecidableEq

/-- Outcome of the `fetch` to the Jina rerank endpoint. -/
inductive RerankOutcome where
  | unreachable (message : String)            -- fetch (or response.json) threw
  | httpError (status : Nat) (statusText : String)  -- response.ok was false
  | ok (results : List JinaResult)
  deriving DecidableEq

structure SearchEnv where
  embedding : Except String (List Int)        -- openai.embeddings.create outcome
  hits : Except String (List QdrantSearchHit) -- qdrant.search outcome
  jinaApiKey : Option String                  -- process.env.JINA_API_KEY
  rerank : RerankOutcome

structure ToolResult where
  texts : List String
  isError : Bool
  deriving DecidableEq

def errorResult (msg : String) : ToolResult :=
  { texts := ["Error performing search: " ++ msg], isError := true }

def SERVER_BASE_URL : String :=
  "https://github.com/jito-foundation/jito-omnidocs/blob/master"

def renderResult (r : SearchResultM) : String :=
  "### " ++ r.metadata.title ++ " (" ++ r.metadata.sectionName ++ ")\n\n" ++
    r.content ++ "\n\n[Source](" ++ SERVER_BASE_URL ++ "/" ++ r.metadata.path ++ ")"

/-- `Array.prototype.sort` with comparator `(a, b) => b.rerankScore -
a.rerankScore`: a stable descending sort on the rerank score. -/
def sortByRerankDesc (l : List (SearchResultM × Int)) : List (SearchResultM × Int) :=
  l.mergeSort (fun a b => b.2 ≤ a.2)

/-- Jina results mapped back onto the similarity results
(`{...results[jinaResult.index], rerankScore: ...}`) and sorted. -/
def rerankMap (results : List SearchResultM) (jres : List JinaResult) :
    List (SearchResultM × Int) :=
  sortByRerankDesc (jres.map fun j => (results.getD j.index defaultSearchResult, j.relevance_score))

/-- The `search` tool handler of the first server variant
(`src/server/mcp.ts` lines 91-179): the rerank stage is mandatory — a
missing key, an unreachable provider or a non-OK response all throw into
the outer catch. -/
def searchHandlerV1 (env : SearchEnv) : ToolResult :=
  match env.embedding with
  | .error m => errorResult m
  | .ok _ =>
    match env.hits with
    | .error m => errorResult m
    | .ok hits =>
      let results := hits.map toSearchResult
      match env.jinaApiKey with
      | none => errorResult "JINA_API_KEY environment variable is required"
      | some _ =>
        match env.rerank with
        | .unreachable m => errorResult m
        | .httpError status statusText =>
          errorResult ("Jina AI API error: " ++ toString status ++ " " ++ statusText)
        | .ok jres =>
          { texts := [String.intercalate "\n\n"
              ((rerankMap results jres).map (fun p => renderResult p.1))]
            isError := false }

/-- The `search` tool handler of the backwards-compatible server variant
(lines 390-483): reranking runs only when a key is configured and more
than one candidate exists, and any rerank failure falls back to the
similarity-ordered results. -/
def searchHandlerV2 (env : SearchEnv) : ToolResult :=
  match env.embedding with
  | .error m => errorResult m
  | .ok _ =>
    match env.hits with
    | .error m => errorResult m
    | .ok hits =>
      let results := hits.map toSearchResult
      let rendered := fun (rs : List SearchResultM) =>
        ({ texts := [String.intercalate "\n\n---\n\n" (rs.map renderResult)]
           isError := false } : ToolResult)
      match env.jinaApiKey with
      | none => rendered results
      | some _ =>
        if 1 < results.length then
          match env.rerank with
          | .unreachable _ => rendered results       -- caught, warning only
          | .httpError _ _ => rendered results       -- response.ok false, warning only
          | .ok jres => rendered ((rerankMap results jres).map (fun p => p.1))
        else rendered results

/-! ## Section resource handlers (`doc-section` / `jito-docs-section`)

Both variants run the same logic: derive the section from the URI path,
`qdrant.scroll` with a `metadata.section` filter and `limit: 10`, and
map the returned points to `{content, metadata}`; a failure is rethrown
as `Failed to fetch section <section>: <message>`. -/

structure ScrollPoint where
  payload : Option QdrantDocPayload
  deriving DecidableEq

/-- The Qdrant filter `must [{key: "metadata.section", match: {value}}]`. -/
def matchesSection (sect : String) (p : ScrollPoint) : Bool :=
  match p.payload with
  | some pl => pl.metadata.sectionName = sect
  | none => false

/-- Modelled from the spec: the vector store collaborator's
`scroll(name, {filter, with_payload, limit})` returns the stored points
matching the filter, at most `limit` of them (spec §6). -/
def scrollBySection (store : List ScrollPoint) (sect : String) (lim : Nat) :
    List ScrollPoint :=
  (store.filter (matchesSection sect)).take lim

/-- `pathname.split("/")`: split on every `/`. -/
def splitSlash : List Char → List (List Char)
  | [] => [[]]
  | c :: rest =>
    if c = '/' then [] :: splitSlash rest
    else match splitSlash rest with
      | [] => [[c]]
      | l :: ls => (c :: l) :: ls

/-- `uri.pathname.split("/").pop() || ""`. -/
def lastPathSegment (pathname : String) : String :=
  String.mk ((splitSlash pathname.data).getLastD [])

structure SectionDoc where
  content : String
  metadata : SearchDocMetadata
  deriving DecidableEq

/-- `{content: point.payload?.content || "", metadata: point.payload?.metadata || {...}}`. -/
def toSectionDoc (p : ScrollPoint) : SectionDoc :=
  { content := match p.payload with | some pl => pl.content | none => ""
    metadata := match p.payload with | some pl => pl.metadata | none => defaultSearchMetadata }

/-- The resource handler; `failure` is the outcome of the scroll call
(`some message` when it threw). -/
def fetchSectionHandler (store : List ScrollPoint) (failure : Option String)
    (pathname : String) : Except String (List SectionDoc) :=
  let pathSection := lastPathSegment pathname
  match failure with
  | some m => .error ("Failed to fetch section " ++ pathSection ++ ": " ++ m)
  | none => .ok ((scrollBySection store pathSection 10).map toSectionDoc)

/-! ## Session transport multiplexer (backwards-compatible variant)

The live session map `transports: Record<string, StreamableHTTPServerTransport
| SSEServerTransport>` binds each session id to the transport object that
created it; the runtime `instanceof` checks are modelled by a transport
kind tag. -/

inductive TransportKind where
  | sse
  | streamableHttp
  deriving DecidableEq

abbrev SessionMap := List (String × TransportKind)

def lookupSession (m : SessionMap) (sid : String) : Option TransportKind :=
  (m.find? (fun p => p.1 = sid)).map (fun p => p.2)

inductive HttpMethod where
  | get
  | post
  | del
  deriving DecidableEq

structure McpRequest where
  method : HttpMethod
  sessionId : Option String   -- mcp-session-id header; none also models ''
  isInit : Bool               -- isInitializeRequest(req.body)
  deriving DecidableEq

inductive McpHttpResponse where
  | jsonRpcError (status : Nat) (code : Int) (message : String)
  | delegated (sid : String)      -- transport.handleRequest / handlePostMessage
  | delegatedNew (sid : String)   -- request handled by a freshly created transport
  deriving DecidableEq

def transportMismatchMessage : String :=
  "Bad Request: Session exists but uses a different transport protocol"

def noValidSessionMessage : String :=
  "Bad Request: No valid session ID provided"

/-- `app.all('/mcp')` of the backwards-compatible variant (lines 601-679).
`freshId` models `randomUUID()`. -/
def handleMcp (m : SessionMap) (freshId : String) (req : McpRequest) :
    SessionMap × McpHttpResponse :=
  match req.sessionId with
  | some sid =>
    match lookupSession m sid with
    | some kind =>
      if kind = .streamableHttp then (m, .delegated sid)
      else (m, .jsonRpcError 400 (-32000) transportMismatchMessage)
    | none => (m, .jsonRpcError 400 (-32000) noValidSessionMessage)
  | none =>
    if req.method = .post ∧ req.isInit then
      (m ++ [(freshId, .streamableHttp)], .delegatedNew freshId)
    else (m, .jsonRpcError 400 (-32000) noValidSessionMessage)

/-- `app.post('/messages')` of the backwards-compatible variant (lines
696-720): anything that is not a live SSE session — including a
StreamableHTTP-bound id — takes the `else` branch. -/
def handleMessages (m : SessionMap) (sid : String) :
    SessionMap × McpHttpResponse :=
  match lookupSession m sid with
  | some .sse => (m, .delegated sid)
  | _ => (m, .jsonRpcError 400 (-32000) transportMismatchMessage)

/-! ## `start-notification-stream` tool handler (lines 544-585)

`while (count === 0 || counter < count) { counter++; ... }`.  The loop is
embedded as an inductive termination relation: `LoopRun count counter k`
holds when the loop, entered with the given `counter`, terminates after
sending `k` further notifications. -/

inductive LoopRun (count : Int) : Int → Nat → Prop where
  | exit (counter : Int) : ¬(count = 0 ∨ counter < count) → LoopRun count counter 0
  | step (counter : Int) (k : Nat) : (count = 0 ∨ counter < count) →
      LoopRun count (counter + 1) k → LoopRun count counter (k + 1)

/-- The text result returned if and when the loop terminates. -/
def notificationStreamResult (interval : Int) : ToolResult :=
  { texts := ["Started sending periodic notifications every " ++ toString interval ++ "ms"]
    isError := false }

/-! ## Helper lemmas for the notification loop -/

theorem loopRun_zero_false {counter : Int} {k : Nat} (h : LoopRun 0 counter k) : False := by
  induction h with
  | exit counter hn => exact hn (Or.inl rfl)
  | step counter k hc hr ih => exact ih

theorem loopRun_exact (n : Nat) (count counter : Int) (hne : count ≠ 0)
    (heq : counter + n = count) : LoopRun count counter n := by
  induction n generalizing counter with
  | zero =>
    refine .exit counter ?_
    omega
  | succ n ih =>
    refine .step counter n (Or.inr (by omega)) (ih (counter + 1) (by omega))

theorem loopRun_eq {count counter : Int} {k : Nat} (h : LoopRun count counter k) :
    k = (count - counter).toNat := by
  induction h with
  | exit counter hn => omega
  | step counter k hc hr ih =>
    rcases hc with hc | hc
    · exact absurd (hc ▸ hr) loopRun_zero_false
    · omega

/-! ## Theorems for the claims -/

/-- C10 (amended): the `start-notification-stream` loop terminates if and
only if `count ≠ 0`; for positive `count` it sends exactly `count`
notifications, for negative `count` it sends none, and for `count = 0` it
never terminates (the description `0 for 100` notwithstanding). -/
theorem notification_loop_termination (count : Int) :
    ((∃ k, LoopRun count 0 k) ↔ count ≠ 0) ∧
    (0 < count → LoopRun count 0 count.toNat) ∧
    (count < 0 → LoopRun count 0 0) ∧
    (∀ k, LoopRun count 0 k → k = count.toNat) := by
  refine ⟨⟨?_, ?_⟩, ?_, ?_, ?_⟩
  · rintro ⟨k, hk⟩ rfl
    exact loopRun_zero_false hk
  · intro hne
    rcases lt_or_gt_of_ne hne with hneg | hpos
    · exact ⟨0, .exit 0 (by omega)⟩
    · exact ⟨count.toNat, loopRun_exact count.toNat count 0 hne (by omega)⟩
  · intro hpos
    exact loopRun_exact count.toNat count 0 (by omega) (by omega)
  · intro hneg
    exact .exit 0 (by omega)
  · intro k hk
    have := loopRun_eq hk
    omega

/-- C10 witness: at `count = 3` the loop terminates after exactly three
notifications, and at `count = -2` after none. -/
theorem notification_loop_termination_witness :
    LoopRun 3 0 ((3 : Int)).toNat ∧ LoopRun (-2) 0 0 ∧
    ∀ k, LoopRun 3 0 k → k = ((3 : Int)).toNat := by
  have h := (notification_loop_termination 3).2.1 (by decide)
  exact ⟨h, (notification_loop_termination (-2)).2.2.1 (by decide),
    (notification_loop_termination 3).2.2.2⟩

/-- C10 counterexample: the claim's "terminates if and only if count is
positive" fails at `count = -1`: the loop exits immediately (the guard
`count === 0 || counter < count` is false) although `-1` is not positive. -/
theorem notification_loop_negative :
    (∃ k, LoopRun (-1) 0 k) ∧ ¬(0 < (-1 : Int)) :=
  ⟨⟨0, .exit 0 (by omega)⟩, by omega⟩

/-- C7: a request bearing a session id bound to the SSE transport but sent
to `/mcp`, or bound to StreamableHTTP but sent to `/messages`, gets HTTP
400 with JSON-RPC error code -32000 and the transport-mismatch message,
and the session map is left unchanged. -/
theorem cross_transport_rejected (m : SessionMap) (sid freshId : String)
    (req : McpRequest) (hreq : req.sessionId = some sid) :
    (lookupSession m sid = some .sse →
      handleMcp m freshId req = (m, .jsonRpcError 400 (-32000) transportMismatchMessage)) ∧
    (lookupSession m sid = some .streamableHttp →
      handleMessages m sid = (m, .jsonRpcError 400 (-32000) transportMismatchMessage)) := by
  constructor
  · intro h
    simp [handleMcp, hreq, h]
  · intro h
    simp [handleMessages, h]

/-- C7 witness: concrete one-session maps for each direction. -/
theorem cross_transport_rejected_witness :
    handleMcp [("s1", TransportKind.sse)] "fresh"
        { method := .post, sessionId := some "s1", isInit := true } =
      ([("s1", TransportKind.sse)], .jsonRpcError 400 (-32000) transportMismatchMessage) ∧
    handleMessages [("s2", TransportKind.streamableHttp)] "s2" =
      ([("s2", TransportKind.streamableHttp)], .jsonRpcError 400 (-32000) transportMismatchMessage) := by
  refine ⟨(cross_transport_rejected [("s1", TransportKind.sse)] "s1" "fresh"
      { method := .post, sessionId := some "s1", isInit := true } rfl).1 (by decide),
    (cross_transport_rejected [("s2", TransportKind.streamableHttp)] "s2" "fresh"
      { method := .post, sessionId := some "s2", isInit := true } rfl).2 (by decide)⟩

/-- C3 counterexample: `chunkText` on the empty input produces a single
empty chunk (the accumulator `' '` is truthy and trims to `''`), refuting
"every string in the output is non-empty". -/
theorem chunk_empty_output :
    chunkText [] = [[]] ∧ ([] : List Char) ∈ chunkText [] := by
  decide

set_option maxRecDepth 100000 in
/-- C2: evaluation at the failing input.  Two 601-character sentences are
split into two chunks and the second chunk neither begins with the
trailing `CHUNK_OVERLAP = 200` characters of the first nor with its
trailing sentence: `chunkText` implements no overlap at all although
`CHUNK_OVERLAP` is declared. -/
theorem chunk_overlap_absent :
    chunkText (List.replicate 600 'a' ++ ['.', ' '] ++ List.replicate 600 'b' ++ ['.']) =
      [List.replicate 600 'a' ++ ['.'], List.replicate 600 'b' ++ ['.']] ∧
    CHUNK_OVERLAP = 200 ∧
    (List.replicate 600 'b' ++ ['.']).take CHUNK_OVERLAP ≠
      (List.replicate 600 'a' ++ ['.']).drop ((List.replicate 600 'a' ++ ['.']).length - CHUNK_OVERLAP) ∧
    (List.replicate 600 'b' ++ ['.']).take (List.replicate 600 'a' ++ ['.']).length ≠
      List.replicate 600 'a' ++ ['.'] := by
  refine ⟨by decide, rfl, by decide, by decide⟩

/-- C9 counterexample: a non-contributing token (e.g. a code block)
between two paragraphs still occupies a slot in the `join('\n')`, so the
output contains an empty line, not a single newline between the two
contributing blocks. -/
theorem extract_blank_line :
    extractTextFromMarkdown [.paragraph ['a'], .other, .paragraph ['b']] =
      ['a', '\n', '\n', 'b'] ∧
    extractTextFromMarkdown [.paragraph ['a'], .other, .paragraph ['b']] ≠ ['a', '\n', 'b'] ∧
    [] ∈ splitNl (extractTextFromMarkdown [.paragraph ['a'], .other, .paragraph ['b']]) := by
  refine ⟨rfl, by decide, by decide⟩

theorem splitNl_ne_nil (l : List Char) : splitNl l ≠ [] := by
  induction l with
  | nil => simp [splitNl]
  | cons c rest ih =>
    by_cases hc : c = '\n'
    · simp [splitNl, hc]
    · cases h : splitNl rest with
      | nil => exact absurd h ih
      | cons l ls => simp [splitNl, hc, h]

theorem splitNl_append (a b : List Char) :
    splitNl (a ++ '\n' :: b) = splitNl a ++ splitNl b := by
  induction a with
  | nil => simp [splitNl]
  | cons c a ih =>
    by_cases hc : c = '\n'
    · subst hc
      simp [splitNl, ih]
    · cases h : splitNl a with
      | nil => exact absurd h (splitNl_ne_nil a)
      | cons l ls =>
        simp only [List.cons_append, splitNl, if_neg hc, ih, h]
        simp only [List.append_eq]
        rw [ih, h]
        simp

theorem splitNl_joinNl (xs : List (List Char)) (h : xs ≠ []) :
    splitNl (joinNl xs) = (xs.map splitNl).flatten := by
  induction xs with
  | nil => exact absurd rfl h
  | cons x xs ih =>
    cases xs with
    | nil => simp [joinNl]
    | cons y ys =>
      have hj : joinNl (x :: y :: ys) = x ++ '\n' :: joinNl (y :: ys) := by
        simp [joinNl]
      rw [hj, splitNl_append, ih (by simp)]
      simp

/-- C9 (amended): splitting the extractor's output on newlines yields the
line blocks of every token in document order — paragraph and heading
texts, list items joined by newlines, and one empty line per
non-contributing token (the `else ''` branch still occupies a slot in the
`join('\n')`). -/
theorem extract_lines (tokens : List MToken) (h : tokens ≠ []) :
    splitNl (extractTextFromMarkdown tokens) =
      (tokens.map (fun tok => splitNl (tokenText tok))).flatten := by
  unfold extractTextFromMarkdown
  rw [splitNl_joinNl _ (by simpa using h), List.map_map]
  rfl

/-- C9 witness: a paragraph followed by a non-contributing token. -/
theorem extract_lines_witness :
    splitNl (extractTextFromMarkdown [MToken.paragraph ['a'], MToken.other]) =
      ([MToken.paragraph ['a'], MToken.other].map (fun tok => splitNl (tokenText tok))).flatten :=
  extract_lines [MToken.paragraph ['a'], MToken.other] (by decide)

/-- C1 (amended): in the backwards-compatible server variant, when the
embedding and similarity search succeed and the rerank stage fails
(missing `JINA_API_KEY`, unreachable provider, or non-OK response), the
handler returns the similarity-ordered results unchanged with no error
flag. -/
theorem rerank_failure_falls_back (env : SearchEnv) (vec : List Int)
    (hits : List QdrantSearchHit)
    (hemb : env.embedding = .ok vec) (hhits : env.hits = .ok hits) (_hne : hits ≠ [])
    (hfail : env.jinaApiKey = none ∨ (∃ m, env.rerank = .unreachable m) ∨
      ∃ status statusText, env.rerank = .httpError status statusText) :
    searchHandlerV2 env =
      { texts := [String.intercalate "\n\n---\n\n" ((hits.map toSearchResult).map renderResult)]
        isError := false } := by
  rcases hfail with hk | ⟨m, hr⟩ | ⟨status, statusText, hr⟩
  · simp [searchHandlerV2, hemb, hhits, hk]
  · cases hkey : env.jinaApiKey with
    | none => simp [searchHandlerV2, hemb, hhits, hkey]
    | some k =>
      simp only [searchHandlerV2, hemb, hhits, hkey, hr]
      split <;> rfl
  · cases hkey : env.jinaApiKey with
    | none => simp [searchHandlerV2, hemb, hhits, hkey]
    | some k =>
      simp only [searchHandlerV2, hemb, hhits, hkey, hr]
      split <;> rfl

def rerankCexHit : QdrantSearchHit :=
  { score := 5
    payload := some
      { content := "Staking is easy."
        metadata :=
          { path := "jitosol/stake.md", sectionName := "jitosol",
            title := "Staking", lastUpdated := "" } } }

def rerankCexEnv : SearchEnv :=
  { embedding := .ok [1], hits := .ok [rerankCexHit], jinaApiKey := some "key"
    rerank := .unreachable "fetch failed" }

/-- C1 counterexample: in the first server variant, with one similarity
candidate and an unreachable rerank provider, the search response carries
the error flag instead of the similarity-ordered results. -/
theorem rerank_failure_v1_flags_error :
    rerankCexEnv.hits = .ok [rerankCexHit] ∧ ([rerankCexHit] : List QdrantSearchHit) ≠ [] ∧
    searchHandlerV1 rerankCexEnv = errorResult "fetch failed" ∧
    (searchHandlerV1 rerankCexEnv).isError = true :=
  ⟨rfl, List.cons_ne_nil _ _, rfl, rfl⟩

def fallbackEnv : SearchEnv :=
  { embedding := .ok [1], hits := .ok [rerankCexHit], jinaApiKey := none
    rerank := .ok [] }

/-- C1 witness: the amended theorem applied with a missing rerank key. -/
theorem rerank_failure_falls_back_witness :
    searchHandlerV2 fallbackEnv =
      { texts := [String.intercalate "\n\n---\n\n"
          (([rerankCexHit].map toSearchResult).map renderResult)]
        isError := false } :=
  rerank_failure_falls_back fallbackEnv [1] [rerankCexHit] rfl rfl
    (List.cons_ne_nil _ _) (Or.inl rfl)

theorem searchHandlerV1_shape (env : SearchEnv) :
    (∃ m, searchHandlerV1 env = errorResult m) ∨
    ∃ t, searchHandlerV1 env = { texts := [t], isError := false } := by
  rcases env with ⟨emb, hits, key, rer⟩
  cases emb with
  | error m => exact Or.inl ⟨m, rfl⟩
  | ok v =>
    cases hits with
    | error m => exact Or.inl ⟨m, rfl⟩
    | ok hs =>
      cases key with
      | none => exact Or.inl ⟨_, rfl⟩
      | some k =>
        cases rer with
        | unreachable m => exact Or.inl ⟨m, rfl⟩
        | httpError status statusText => exact Or.inl ⟨_, rfl⟩
        | ok jres => exact Or.inr ⟨_, rfl⟩

theorem searchHandlerV2_shape (env : SearchEnv) :
    (∃ m, searchHandlerV2 env = errorResult m) ∨
    ∃ t, searchHandlerV2 env = { texts := [t], isError := false } := by
  rcases env with ⟨emb, hits, key, rer⟩
  cases emb with
  | error m => exact Or.inl ⟨m, rfl⟩
  | ok v =>
    cases hits with
    | error m => exact Or.inl ⟨m, rfl⟩
    | ok hs =>
      cases key with
      | none =>
        exact Or.inr ⟨String.intercalate "\n\n---\n\n"
          ((hs.map toSearchResult).map renderResult), rfl⟩
      | some k =>
        refine Or.inr ?_
        unfold searchHandlerV2
        dsimp only
        cases rer with
        | unreachable m => split <;> exact ⟨_, rfl⟩
        | httpError status statusText => split <;> exact ⟨_, rfl⟩
        | ok jres => split <;> exact ⟨_, rfl⟩

/-- C6: both search tool handlers always return a normal-shaped result
with exactly one text entry (never throwing across the protocol
boundary); an embedding or vector-store failure surfaces as an
error-flagged response carrying a human-readable message, and an
error-flagged response always carries exactly the one message (no
partial results). -/
theorem search_handler_total_shape (env : SearchEnv) :
    (searchHandlerV1 env).texts.length = 1 ∧
    (searchHandlerV2 env).texts.length = 1 ∧
    (∀ m, env.embedding = .error m →
      searchHandlerV1 env = errorResult m ∧ searchHandlerV2 env = errorResult m) ∧
    (∀ vec m, env.embedding = .ok vec → env.hits = .error m →
      searchHandlerV1 env = errorResult m ∧ searchHandlerV2 env = errorResult m) ∧
    ((searchHandlerV1 env).isError = true →
      ∃ m, (searchHandlerV1 env).texts = ["Error performing search: " ++ m]) ∧
    ((searchHandlerV2 env).isError = true →
      ∃ m, (searchHandlerV2 env).texts = ["Error performing search: " ++ m]) := by
  refine ⟨?_, ?_, ?_, ?_, ?_, ?_⟩
  · rcases searchHandlerV1_shape env with ⟨m, h⟩ | ⟨t, h⟩ <;> simp [h, errorResult]
  · rcases searchHandlerV2_shape env with ⟨m, h⟩ | ⟨t, h⟩ <;> simp [h, errorResult]
  · intro m hm
    constructor
    · simp [searchHandlerV1, hm]
    · simp [searchHandlerV2, hm]
  · intro vec m hv hm
    constructor
    · simp [searchHandlerV1, hv, hm]
    · simp [searchHandlerV2, hv, hm]
  · intro herr
    rcases searchHandlerV1_shape env with ⟨m, h⟩ | ⟨t, h⟩
    · exact ⟨m, by simp [h, errorResult]⟩
    · rw [h] at herr
      simp at herr
  · intro herr
    rcases searchHandlerV2_shape env with ⟨m, h⟩ | ⟨t, h⟩
    · exact ⟨m, by simp [h, errorResult]⟩
    · rw [h] at herr
      simp at herr

def embedFailEnv : SearchEnv :=
  { embedding := .error "embedding down", hits := .ok [], jinaApiKey := none
    rerank := .ok [] }

def storeFailEnv : SearchEnv :=
  { embedding := .ok [1], hits := .error "store down", jinaApiKey := none
    rerank := .ok [] }

/-- C6 witness: concrete environments exercising the hypotheses. -/
theorem search_handler_total_shape_witness :
    (searchHandlerV1 embedFailEnv = errorResult "embedding down" ∧
      searchHandlerV2 embedFailEnv = errorResult "embedding down") ∧
    (searchHandlerV1 storeFailEnv = errorResult "store down" ∧
      searchHandlerV2 storeFailEnv = errorResult "store down") ∧
    (∃ m, (searchHandlerV1 embedFailEnv).texts = ["Error performing search: " ++ m]) := by
  refine ⟨(search_handler_total_shape embedFailEnv).2.2.1 "embedding down" rfl,
    (search_handler_total_shape storeFailEnv).2.2.2.1 [1] "store down" rfl rfl,
    (search_handler_total_shape embedFailEnv).2.2.2.2.1 rfl⟩

/-- C8 (amended): the section resource returns the `{content, metadata}`
projections of the stored chunks whose `metadata.section` equals the
last path segment — all of them whenever at most 10 match (the handler
passes `limit: 10` to `scroll`) — and a lookup failure propagates an
error naming the section. -/
theorem fetchSection_behavior (store : List ScrollPoint) (pathname failMsg : String)
    (hlen : (store.filter (matchesSection (lastPathSegment pathname))).length ≤ 10) :
    fetchSectionHandler store none pathname =
      .ok ((store.filter (matchesSection (lastPathSegment pathname))).map toSectionDoc) ∧
    fetchSectionHandler store (some failMsg) pathname =
      .error ("Failed to fetch section " ++ lastPathSegment pathname ++ ": " ++ failMsg) := by
  constructor
  · simp [fetchSectionHandler, scrollBySection, List.take_of_length_le hlen]
  · rfl

def sectionCexPoint : ScrollPoint :=
  { payload := some
      { content := "c"
        metadata := { path := "p", sectionName := "s", title := "t", lastUpdated := "" } } }

/-- C8 counterexample: with 11 stored chunks in section `s`, the handler
returns only 10 of them (`scroll` is called with `limit: 10`), so it does
not return the documents of all matching chunks. -/
theorem fetchSection_scroll_limit :
    ((List.replicate 11 sectionCexPoint).filter
        (matchesSection (lastPathSegment "s"))).length = 11 ∧
    ((fetchSectionHandler (List.replicate 11 sectionCexPoint) none "s").toOption.getD
        []).length = 10 := by
  constructor
  · rfl
  · rfl

/-! ## Lemmas about `jsTrim`, `joinSp` and the chunk accumulator -/

theorem dropWhile_dropWhile (p : Char → Bool) (l : List Char) :
    (l.dropWhile p).dropWhile p = l.dropWhile p := by
  induction l with
  | nil => rfl
  | cons c rest ih =>
    by_cases h : p c
    · simp [List.dropWhile_cons, h, ih]
    · simp [List.dropWhile_cons, h]

theorem dropWhile_append_singleton (p : Char → Bool) (xs : List Char) (a : Char) :
    (xs ++ [a]).dropWhile p =
      if (xs.dropWhile p).isEmpty then [a].dropWhile p else xs.dropWhile p ++ [a] := by
  induction xs with
  | nil => simp
  | cons x xs ih =>
    by_cases h : p x
    · simpa [List.dropWhile_cons, h] using ih
    · simp [List.dropWhile_cons, h]

theorem trimEnd_append_ws (l : List Char) (c : Char) (hc : isJsWs c = true) :
    trimEnd (l ++ [c]) = trimEnd l := by
  unfold trimEnd
  simp [List.reverse_append, List.dropWhile_cons, hc]

theorem trimEnd_cons (c : Char) (l : List Char) :
    trimEnd (c :: l) = [] ∨ trimEnd (c :: l) = c :: trimEnd l := by
  unfold trimEnd
  rw [show (c :: l).reverse = l.reverse ++ [c] by simp, dropWhile_append_singleton]
  by_cases h : (l.reverse.dropWhile isJsWs).isEmpty
  · rw [if_pos h]
    have h' : l.reverse.dropWhile isJsWs = [] := by simpa using h
    by_cases hc : isJsWs c
    · left
      simp [List.dropWhile_cons, hc]
    · right
      simp [List.dropWhile_cons, hc, h']
  · rw [if_neg h]
    right
    simp

theorem trimEnd_eq_nil_iff (l : List Char) :
    trimEnd l = [] ↔ ∀ x ∈ l, isJsWs x := by
  unfold trimEnd
  rw [List.reverse_eq_nil_iff, List.dropWhile_eq_nil_iff]
  constructor <;> intro h x hx
  · exact h x (List.mem_reverse.mpr hx)
  · exact h x (List.mem_reverse.mp hx)

theorem jsTrim_cons_ws (c : Char) (l : List Char) (hc : isJsWs c = true) :
    jsTrim (c :: l) = jsTrim l := by
  unfold jsTrim
  rcases trimEnd_cons c l with h | h
  · have h0 : ∀ x ∈ c :: l, isJsWs x := (trimEnd_eq_nil_iff _).mp h
    have h1 : trimEnd l = [] :=
      (trimEnd_eq_nil_iff l).mpr (fun x hx => h0 x (List.mem_cons_of_mem _ hx))
    rw [h, h1]
  · rw [h]
    simp [List.dropWhile_cons, hc]

theorem jsTrim_append_ws (l : List Char) (c : Char) (hc : isJsWs c = true) :
    jsTrim (l ++ [c]) = jsTrim l := by
  unfold jsTrim
  rw [trimEnd_append_ws l c hc]

theorem trimEnd_trimEnd (l : List Char) : trimEnd (trimEnd l) = trimEnd l := by
  unfold trimEnd
  rw [List.reverse_reverse, dropWhile_dropWhile]

theorem trimEnd_dropWhile (l : List Char) (h : trimEnd l = l) :
    trimEnd (l.dropWhile isJsWs) = l.dropWhile isJsWs := by
  induction l with
  | nil => rfl
  | cons c rest ih =>
    by_cases hc : isJsWs c
    · rcases trimEnd_cons c rest with h' | h'
      · rw [h'] at h
        exact absurd h (by simp)
      · rw [h'] at h
        have hr : trimEnd rest = rest := by simpa using congrArg List.tail h
        simpa [List.dropWhile_cons, hc] using ih hr
    · rw [List.dropWhile_cons, if_neg (by simpa using hc)]
      exact h

theorem jsTrim_idem (l : List Char) : jsTrim (jsTrim l) = jsTrim l := by
  unfold jsTrim
  rw [trimEnd_dropWhile (trimEnd l) (trimEnd_trimEnd l), dropWhile_dropWhile]

theorem dropWhile_length_le (p : Char → Bool) (l : List Char) :
    (l.dropWhile p).length ≤ l.length := by
  induction l with
  | nil => exact le_refl _
  | cons c rest ih =>
    by_cases h : p c
    · rw [List.dropWhile_cons, if_pos h]
      exact le_trans ih (Nat.le_succ _)
    · rw [List.dropWhile_cons, if_neg h]

theorem jsTrim_length_le (l : List Char) : (jsTrim l).length ≤ l.length := by
  unfold jsTrim trimEnd
  refine le_trans (dropWhile_length_le _ _) ?_
  rw [List.length_reverse]
  refine le_trans (dropWhile_length_le _ _) ?_
  rw [List.length_reverse]

theorem joinSp_cons (s : List Char) (t : List (List Char)) (h : t ≠ []) :
    joinSp (s :: t) = s ++ [' '] ++ joinSp t := by
  cases t with
  | nil => exact absurd rfl h
  | cons a t => rfl

theorem joinSp_append_single (B : List (List Char)) (x : List Char) (h : B ≠ []) :
    joinSp (B ++ [x]) = joinSp B ++ [' '] ++ x := by
  induction B with
  | nil => exact absurd rfl h
  | cons b B ih =>
    cases B with
    | nil => rfl
    | cons b' B' =>
      rw [show joinSp ((b :: b' :: B') ++ [x]) = b ++ [' '] ++ joinSp ((b' :: B') ++ [x]) from rfl]
      rw [ih (by simp), joinSp_cons b (b' :: B') (by simp)]
      simp

theorem joinSp_eq_nil (B : List (List Char)) (h : joinSp B = []) : B = [] ∨ B = [[]] := by
  cases B with
  | nil => exact Or.inl rfl
  | cons b B =>
    cases B with
    | nil =>
      right
      simpa [joinSp] using h
    | cons b' B' =>
      exfalso
      rw [show joinSp (b :: b' :: B') = b ++ [' '] ++ joinSp (b' :: B') from rfl] at h
      simp at h

theorem jsTrim_joinSp_append_empty (B : List (List Char)) :
    jsTrim (joinSp (B ++ [[]])) = jsTrim (joinSp B) := by
  cases B with
  | nil => rfl
  | cons b B =>
    have h : joinSp ((b :: B) ++ [[]]) = joinSp (b :: B) ++ [' '] := by
      rw [joinSp_append_single (b :: B) [] (by simp)]
      simp
    rw [h]
    exact jsTrim_append_ws _ ' ' (by decide)

/-- Invariant linking `currentChunk` with the sentences accumulated into
it: it is empty, or the space-join of the pending sentences, possibly with
one leading space (from the very first `'' + ' ' + sentence`). -/
def ChunkInv (cur : List Char) (pending : List (List Char)) : Prop :=
  (cur = [] ∧ pending = []) ∨
  (pending ≠ [] ∧ cur = joinSp pending) ∨
  (pending ≠ [] ∧ cur = ' ' :: joinSp pending)

theorem ChunkInv.trim_eq {cur : List Char} {pending : List (List Char)}
    (h : ChunkInv cur pending) : jsTrim cur = jsTrim (joinSp pending) := by
  rcases h with ⟨h1, h2⟩ | ⟨_, h2⟩ | ⟨_, h2⟩
  · rw [h1, h2]
    rfl
  · rw [h2]
  · rw [h2]
    exact jsTrim_cons_ws ' ' _ (by decide)

theorem ChunkInv.push {cur : List Char} {pending : List (List Char)}
    (h : ChunkInv cur pending) (s : List Char) :
    ChunkInv (cur ++ [' '] ++ s) (pending ++ [s]) := by
  rcases h with ⟨h1, h2⟩ | ⟨hne, h2⟩ | ⟨hne, h2⟩
  · subst h1
    subst h2
    exact Or.inr (Or.inr ⟨by simp, rfl⟩)
  · refine Or.inr (Or.inl ⟨by simp, ?_⟩)
    rw [h2, joinSp_append_single pending s hne]
  · refine Or.inr (Or.inr ⟨by simp, ?_⟩)
    rw [h2, joinSp_append_single pending s hne]
    rfl

/-- Every run of the accumulator loop groups the pending and remaining
sentences into consecutive blocks whose trimmed space-joins are exactly
the emitted chunks; at most one trailing empty sentence is dropped. -/
theorem chunkAux_blocks (rest : List (List Char)) :
    ∀ (cur : List Char) (pending : List (List Char)), ChunkInv cur pending →
    ∃ blocks : List (List (List Char)),
      chunkAux rest cur = blocks.map (fun B => jsTrim (joinSp B)) ∧
      (blocks.flatten = pending ++ rest ∨ blocks.flatten ++ [[]] = pending ++ rest) := by
  induction rest with
  | nil =>
    intro cur pending hinv
    by_cases hcur : cur = []
    · subst hcur
      rcases hinv with ⟨_, h2⟩ | ⟨hne, h2⟩ | ⟨hne, h2⟩
      · subst h2
        exact ⟨[], rfl, Or.inl (by simp)⟩
      · rcases joinSp_eq_nil pending h2.symm with h | h
        · exact absurd h hne
        · subst h
          exact ⟨[], rfl, Or.inr (by simp)⟩
      · exact absurd h2 (by simp)
    · refine ⟨[pending], ?_, Or.inl (by simp)⟩
      rw [show chunkAux [] cur = [jsTrim cur] by simp [chunkAux, hcur], hinv.trim_eq]
      rfl
  | cons s rest ih =>
    intro cur pending hinv
    by_cases hsize : CHUNK_SIZE < cur.length + s.length
    · obtain ⟨blocks, hmap, hjoin⟩ := ih s [s] (Or.inr (Or.inl ⟨by simp, rfl⟩))
      refine ⟨pending :: blocks, ?_, ?_⟩
      · rw [show chunkAux (s :: rest) cur = jsTrim cur :: chunkAux rest s by
          simp [chunkAux, hsize], hmap, hinv.trim_eq]
        rfl
      · rcases hjoin with h | h
        · left
          simp only [List.flatten_cons, h]
          simp
        · right
          simp only [List.flatten_cons, List.append_assoc, h]
          simp
    · obtain ⟨blocks, hmap, hjoin⟩ := ih (cur ++ [' '] ++ s) (pending ++ [s]) (hinv.push s)
      refine ⟨blocks, ?_, ?_⟩
      · rw [show chunkAux (s :: rest) cur = chunkAux rest (cur ++ [' '] ++ s) by
          simp [chunkAux, hsize], hmap]
      · rcases hjoin with h | h
        · left
          rw [h]
          simp
        · right
          rw [h]
          simp

theorem splitGo_head (l : List Char) :
    ∀ (sk : Bool) (acc : List Char),
      ∃ s rest, splitGo sk l acc = (acc.reverse ++ s) :: rest := by
  induction l with
  | nil =>
    intro sk acc
    exact ⟨[], [], by simp [splitGo]⟩
  | cons c l ih =>
    intro sk acc
    by_cases h1 : (sk && isJsWs c) = true
    · obtain ⟨s, rest, hs⟩ := ih true acc
      exact ⟨s, rest, by simp [splitGo, h1, hs]⟩
    · by_cases h2 : (isSentencePunct c && headIsWs l) = true
      · refine ⟨[c], splitGo true l [], ?_⟩
        simp [splitGo, h1, h2]
      · obtain ⟨s, rest, hs⟩ := ih false (c :: acc)
        refine ⟨c :: s, rest, ?_⟩
        rw [show splitGo sk (c :: l) acc = splitGo false l (c :: acc) by
          simp [splitGo, h1, h2], hs]
        simp

theorem splitSentences_ne_single_empty (t : List Char)
    (h : splitSentences t = [[]]) : t = [] := by
  cases t with
  | nil => rfl
  | cons c rest =>
    exfalso
    unfold splitSentences at h
    by_cases h2 : (isSentencePunct c && headIsWs rest) = true
    · rw [show splitGo false (c :: rest) [] = [c] :: splitGo true rest [] by
        simp [splitGo, h2]] at h
      simp at h
    · obtain ⟨s, r, hs⟩ := splitGo_head rest false [c]
      rw [show splitGo false (c :: rest) [] = splitGo false rest [c] by
        simp [splitGo, h2], hs] at h
      simp at h

/-- The chunk decomposition of `chunkText`: the sentence list is
partitioned, in order, into consecutive blocks, and each chunk is the
whitespace-trimmed single-space join of its block.  In particular every
sentence lands, unsplit, in exactly one chunk. -/
theorem chunkText_blocks (t : List Char) :
    ∃ blocks : List (List (List Char)),
      blocks.flatten = splitSentences t ∧
      chunkText t = blocks.map (fun B => jsTrim (joinSp B)) := by
  obtain ⟨blocks, hmap, hjoin⟩ :=
    chunkAux_blocks (splitSentences t) [] [] (Or.inl ⟨rfl, rfl⟩)
  rcases hjoin with h | h
  · exact ⟨blocks, by simpa using h, hmap⟩
  · cases blocks with
    | nil =>
      exfalso
      simp only [List.flatten_nil, List.nil_append] at h
      have ht := splitSentences_ne_single_empty t h.symm
      subst ht
      rw [h.symm] at hmap
      exact absurd hmap (by decide)
    | cons B bs =>
      have hne : (B :: bs) ≠ ([] : List (List (List Char))) := by simp
      have hL : (B :: bs).dropLast ++ [(B :: bs).getLast hne] = B :: bs :=
        List.dropLast_append_getLast hne
      refine ⟨(B :: bs).dropLast ++ [(B :: bs).getLast hne ++ [[]]], ?_, ?_⟩
      · rw [List.flatten_append]
        rw [show ([(B :: bs).getLast hne ++ [[]]] : List (List (List Char))).flatten =
            (B :: bs).getLast hne ++ [[]] by simp]
        rw [← List.append_assoc]
        have h2 : (B :: bs).dropLast.flatten ++ (B :: bs).getLast hne = (B :: bs).flatten := by
          conv_rhs => rw [← hL]
          rw [List.flatten_append]
          simp
        rw [h2]
        simpa using h
      · show chunkAux (splitSentences t) [] = List.map (fun B => jsTrim (joinSp B))
          ((B :: bs).dropLast ++ [(B :: bs).getLast hne ++ [[]]])
        rw [hmap]
        conv_lhs => rw [← hL]
        rw [List.map_append, List.map_append]
        simp only [List.map_cons, List.map_nil]
        rw [jsTrim_joinSp_append_empty]

theorem foldr_max_le_mem {l : List Nat} {x : Nat} (hx : x ∈ l) : x ≤ l.foldr max 0 := by
  induction l with
  | nil => cases hx
  | cons a l ih =>
    rcases List.mem_cons.mp hx with rfl | h
    · exact le_max_left _ _
    · exact le_trans (ih h) (le_max_right _ _)

theorem chunkAux_bound (rest : List (List Char)) :
    ∀ (cur : List Char) (M : Nat), (∀ s ∈ rest, s.length ≤ M) →
      (jsTrim cur).length ≤ CHUNK_SIZE + M →
      ∀ c ∈ chunkAux rest cur, c.length ≤ CHUNK_SIZE + M := by
  induction rest with
  | nil =>
    intro cur M _ hcur c hc
    by_cases h : cur = []
    · simp [chunkAux, h] at hc
    · simp only [chunkAux, if_neg h, List.mem_singleton] at hc
      subst hc
      exact hcur
  | cons s rest ih =>
    intro cur M hrest hcur c hc
    by_cases hsize : CHUNK_SIZE < cur.length + s.length
    · rw [show chunkAux (s :: rest) cur = jsTrim cur :: chunkAux rest s by
        simp [chunkAux, hsize]] at hc
      rcases List.mem_cons.mp hc with rfl | hc'
      · exact hcur
      · refine ih s M (fun x hx => hrest x (List.mem_cons_of_mem _ hx)) ?_ c hc'
        calc (jsTrim s).length ≤ s.length := jsTrim_length_le s
          _ ≤ M := hrest s (List.mem_cons_self _ _)
          _ ≤ CHUNK_SIZE + M := by omega
    · rw [show chunkAux (s :: rest) cur = chunkAux rest (cur ++ [' '] ++ s) by
        simp [chunkAux, hsize]] at hc
      refine ih (cur ++ [' '] ++ s) M (fun x hx => hrest x (List.mem_cons_of_mem _ hx)) ?_ c hc
      by_cases hs : s = []
      · subst hs
        rw [show cur ++ [' '] ++ ([] : List Char) = cur ++ [' '] by simp]
        rw [jsTrim_append_ws cur ' ' (by decide)]
        exact hcur
      · have hslen : 1 ≤ s.length := by
          cases s with
          | nil => exact absurd rfl hs
          | cons a b => simp
        have hM : 1 ≤ M := le_trans hslen (hrest s (List.mem_cons_self _ _))
        have hlen : (jsTrim (cur ++ [' '] ++ s)).length ≤ cur.length + 1 + s.length := by
          calc (jsTrim (cur ++ [' '] ++ s)).length ≤ (cur ++ [' '] ++ s).length :=
                jsTrim_length_le _
            _ = cur.length + 1 + s.length := by
                simp only [List.length_append, List.length_cons, List.length_nil]
        omega

/-- C4: the chunks of `chunkText`, viewed through the sentence split,
reconstruct the original sentence sequence: the sentences are partitioned
in order into consecutive blocks, one block per chunk, and each chunk is
exactly its block's sentences joined by single spaces (trimmed at the
chunk boundary) — no sentence is split, duplicated, or dropped, and no
text beyond the joining whitespace is introduced. -/
theorem chunk_reconstruction (t : List Char) :
    ∃ blocks : List (List (List Char)),
      blocks.flatten = splitSentences t ∧
      chunkText t = blocks.map (fun B => jsTrim (joinSp B)) :=
  chunkText_blocks t

/-- C3 (amended): every chunk equals its own whitespace-trim, is at most
`CHUNK_SIZE` plus one sentence length long, and is the trimmed space-join
of a consecutive run of whole input sentences (no sentence is split);
non-emptiness, however, can fail (see the counterexample). -/
theorem chunk_shape (t c : List Char) (h : c ∈ chunkText t) :
    jsTrim c = c ∧ c.length ≤ CHUNK_SIZE + maxSentLen t ∧
    ∃ B, B <:+: splitSentences t ∧ c = jsTrim (joinSp B) := by
  have hbound : c.length ≤ CHUNK_SIZE + maxSentLen t := by
    refine chunkAux_bound (splitSentences t) [] (maxSentLen t) ?_ ?_ c h
    · intro s hs
      exact foldr_max_le_mem (List.mem_map_of_mem List.length hs)
    · simp [jsTrim, trimEnd]
  obtain ⟨blocks, hflat, hmap⟩ := chunkText_blocks t
  rw [hmap] at h
  obtain ⟨B, hB, hc⟩ := List.mem_map.mp h
  subst hc
  exact ⟨jsTrim_idem _, hbound, B, hflat ▸ List.infix_of_mem_flatten hB, rfl⟩

/-- C3 witness: a one-sentence input. -/
theorem chunk_shape_witness :
    jsTrim ['h', 'i', '.'] = ['h', 'i', '.'] ∧
    (['h', 'i', '.'] : List Char).length ≤ CHUNK_SIZE + maxSentLen ['h', 'i', '.'] ∧
    ∃ B, B <:+: splitSentences ['h', 'i', '.'] ∧ ['h', 'i', '.'] = jsTrim (joinSp B) :=
  chunk_shape ['h', 'i', '.'] ['h', 'i', '.'] (by decide)

/-! ## Lemmas about the upsert store model (for idempotent indexing) -/

theorem find?_append {α : Type} (l₁ l₂ : List α) (f : α → Bool) :
    (l₁ ++ l₂).find? f = match l₁.find? f with
      | some x => some x
      | none => l₂.find? f := by
  induction l₁ with
  | nil => simp
  | cons a l₁ ih =>
    by_cases h : f a
    · simp [List.find?_cons_of_pos _ h]
    · simp only [List.cons_append, List.find?_cons_of_neg _ h, ih]

theorem any_id_eq_true_iff (store : List DocPoint) (i : String) :
    store.any (fun q => q.id = i) = true ↔ i ∈ store.map (fun q => q.id) := by
  simp [List.any_eq_true, List.mem_map]

theorem findContent_map_replace_ne (store : List DocPoint) (p : DocPoint) (pid : String)
    (hne : pid ≠ p.id) :
    findContent (store.map (fun q => if q.id = p.id then p else q)) pid =
      findContent store pid := by
  induction store with
  | nil => rfl
  | cons q store ih =>
    simp only [List.map_cons]
    by_cases hq : q.id = p.id
    · rw [if_pos hq]
      unfold findContent
      rw [List.find?_cons_of_neg _ (by simp [Ne.symm hne]),
        List.find?_cons_of_neg _ (by simp [hq]; exact fun hh => hne hh.symm)]
      exact ih
    · rw [if_neg hq]
      by_cases hqp : q.id = pid
      · unfold findContent
        rw [List.find?_cons_of_pos _ (by simp [hqp]),
          List.find?_cons_of_pos _ (by simp [hqp])]
      · unfold findContent
        rw [List.find?_cons_of_neg _ (by simp [hqp]),
          List.find?_cons_of_neg _ (by simp [hqp])]
        exact ih

theorem findContent_map_replace (store : List DocPoint) (p : DocPoint) (pid : String)
    (hany : store.any (fun q => q.id = p.id) = true) :
    findContent (store.map (fun q => if q.id = p.id then p else q)) pid =
      if pid = p.id then some p.content else findContent store pid := by
  by_cases hp : pid = p.id
  · rw [if_pos hp]
    subst hp
    induction store with
    | nil => simp at hany
    | cons q store ih =>
      simp only [List.map_cons]
      by_cases hq : q.id = p.id
      · rw [if_pos hq]
        unfold findContent
        rw [List.find?_cons_of_pos _ (by simp)]
        rfl
      · rw [if_neg hq]
        unfold findContent
        rw [List.find?_cons_of_neg _ (by simp [hq])]
        have hany' : store.any (fun q => q.id = p.id) = true := by
          simp only [List.any_cons] at hany
          rcases Bool.or_eq_true_iff.mp hany with h | h
          · exact absurd (of_decide_eq_true h) hq
          · exact h
        exact ih hany'
  · rw [if_neg hp]
    exact findContent_map_replace_ne store p pid hp

theorem findContent_append_single (store : List DocPoint) (p : DocPoint) (pid : String) :
    findContent (store ++ [p]) pid =
      match findContent store pid with
      | some c => some c
      | none => if pid = p.id then some p.content else none := by
  cases h : store.find? (fun q => q.id = pid) with
  | some q =>
    have h1 : findContent store pid = some q.content := by simp [findContent, h]
    have h2 : findContent (store ++ [p]) pid = some q.content := by
      simp [findContent, find?_append, h]
    rw [h1, h2]
  | none =>
    have h1 : findContent store pid = none := by simp [findContent, h]
    rw [h1]
    by_cases hp : p.id = pid
    · have h2 : findContent (store ++ [p]) pid = some p.content := by
        unfold findContent
        rw [find?_append, h]
        simp [List.find?, hp]
      rw [h2, if_pos hp.symm]
    · have h2 : findContent (store ++ [p]) pid = none := by
        unfold findContent
        rw [find?_append, h]
        simp [List.find?, hp]
      rw [h2, if_neg (fun hh => hp hh.symm)]

theorem findContent_upsertOne (store : List DocPoint) (p : DocPoint) (pid : String) :
    findContent (upsertOne store p) pid =
      if pid = p.id then some p.content else findContent store pid := by
  unfold upsertOne
  by_cases hany : store.any (fun q => q.id = p.id) = true
  · rw [if_pos hany]
    exact findContent_map_replace store p pid hany
  · rw [if_neg hany, findContent_append_single]
    by_cases hp : pid = p.id
    · have hfind : store.find? (fun q => q.id = pid) = none := by
        rw [List.find?_eq_none]
        intro x hx hxid
        exact hany ((any_id_eq_true_iff store p.id).mpr
          (List.mem_map.mpr ⟨x, hx, (of_decide_eq_true hxid).trans hp⟩))
      have hfc : findContent store pid = none := by simp [findContent, hfind]
      rw [hfc, if_pos hp]
    · cases hfc : findContent store pid with
      | some c => simp [hfc, hp]
      | none => simp [hfc, hp]

def lastWrite (ps : List DocPoint) (pid : String) : Option (List Char) :=
  (ps.reverse.find? (fun q => q.id = pid)).map (fun q => q.content)

theorem lastWrite_cons (p : DocPoint) (ps : List DocPoint) (pid : String) :
    lastWrite (p :: ps) pid =
      match lastWrite ps pid with
      | some c => some c
      | none => if p.id = pid then some p.content else none := by
  unfold lastWrite
  rw [show (p :: ps).reverse = ps.reverse ++ [p] from by simp, find?_append]
  cases h : ps.reverse.find? (fun q => q.id = pid) with
  | some q => simp
  | none =>
    by_cases hp : p.id = pid
    · simp [List.find?, hp]
    · simp [List.find?, hp]

theorem findContent_upsertBatch (ps : List DocPoint) :
    ∀ (store : List DocPoint) (pid : String),
      findContent (upsertBatch store ps) pid =
        match lastWrite ps pid with
        | some c => some c
        | none => findContent store pid := by
  induction ps with
  | nil =>
    intro store pid
    simp [upsertBatch, lastWrite]
  | cons p ps ih =>
    intro store pid
    rw [show upsertBatch store (p :: ps) = upsertBatch (upsertOne store p) ps from rfl,
      ih (upsertOne store p) pid, findContent_upsertOne, lastWrite_cons]
    cases hl : lastWrite ps pid with
    | some c => rfl
    | none =>
      by_cases hp : pid = p.id
      · subst hp
        simp
      · rw [if_neg hp, if_neg (Ne.symm hp)]

theorem mem_ids_upsertOne_self (store : List DocPoint) (p : DocPoint) :
    p.id ∈ (upsertOne store p).map (fun q => q.id) := by
  unfold upsertOne
  by_cases hany : store.any (fun q => q.id = p.id) = true
  · rw [if_pos hany]
    obtain ⟨q, hq, hdec⟩ := List.any_eq_true.mp hany
    refine List.mem_map.mpr ⟨p, List.mem_map.mpr ⟨q, hq, ?_⟩, rfl⟩
    simp [of_decide_eq_true hdec]
  · rw [if_neg hany]
    simp

theorem mem_ids_upsertOne_mono (store : List DocPoint) (p : DocPoint) (x : String)
    (hx : x ∈ store.map (fun q => q.id)) :
    x ∈ (upsertOne store p).map (fun q => q.id) := by
  unfold upsertOne
  by_cases hany : store.any (fun q => q.id = p.id) = true
  · rw [if_pos hany, List.map_map]
    obtain ⟨a, ha, haid⟩ := List.mem_map.mp hx
    refine List.mem_map.mpr ⟨a, ha, ?_⟩
    by_cases h : a.id = p.id
    · simp only [Function.comp]
      rw [if_pos h, ← haid, h]
    · simp only [Function.comp]
      rw [if_neg h, haid]
  · rw [if_neg hany]
    rw [List.map_append]
    exact List.mem_append_left _ hx

theorem mem_ids_upsertBatch (ps : List DocPoint) :
    ∀ (store : List DocPoint) (x : String),
      (x ∈ store.map (fun q => q.id) ∨ x ∈ ps.map (fun q => q.id)) →
      x ∈ (upsertBatch store ps).map (fun q => q.id) := by
  induction ps with
  | nil =>
    intro store x hx
    rcases hx with hx | hx
    · exact hx
    · cases hx
  | cons p ps ih =>
    intro store x hx
    rw [show upsertBatch store (p :: ps) = upsertBatch (upsertOne store p) ps from rfl]
    rcases hx with hx | hx
    · exact ih _ x (Or.inl (mem_ids_upsertOne_mono store p x hx))
    · rcases List.mem_map.mp hx with ⟨a, ha, haid⟩
      rcases List.mem_cons.mp ha with rfl | ha'
      · exact ih _ x (Or.inl (haid ▸ mem_ids_upsertOne_self store a))
      · exact ih _ x (Or.inr (List.mem_map.mpr ⟨a, ha', haid⟩))

theorem upsertBatch_ids (ps : List DocPoint) :
    ∀ store : List DocPoint, (∀ p ∈ ps, p.id ∈ store.map (fun q => q.id)) →
      (upsertBatch store ps).map (fun q => q.id) = store.map (fun q => q.id) := by
  induction ps with
  | nil => intro store _; rfl
  | cons p ps ih =>
    intro store h
    have hp : p.id ∈ store.map (fun q => q.id) := h p (List.mem_cons_self _ _)
    have hany : store.any (fun q => q.id = p.id) = true := (any_id_eq_true_iff store p.id).mpr hp
    have h1 : (upsertOne store p).map (fun q => q.id) = store.map (fun q => q.id) := by
      unfold upsertOne
      rw [if_pos hany, List.map_map]
      refine List.map_congr_left ?_
      intro q hq
      by_cases hqid : q.id = p.id
      · simp only [Function.comp]
        rw [if_pos hqid, hqid]
      · simp only [Function.comp]
        rw [if_neg hqid]
    have hsub : ∀ x ∈ ps, x.id ∈ (upsertOne store p).map (fun q => q.id) := by
      intro x hx
      rw [h1]
      exact h x (List.mem_cons_of_mem _ hx)
    calc (upsertBatch store (p :: ps)).map (fun q => q.id)
        = (upsertBatch (upsertOne store p) ps).map (fun q => q.id) := rfl
      _ = (upsertOne store p).map (fun q => q.id) := ih _ hsub
      _ = store.map (fun q => q.id) := h1

theorem findContent_proj_congr (l1 : List DocPoint) :
    ∀ l2 : List DocPoint,
      l1.map (fun p => (p.id, p.content)) = l2.map (fun p => (p.id, p.content)) →
      ∀ pid : String,
        (l1.find? (fun q => q.id = pid)).map (fun q => q.content) =
          (l2.find? (fun q => q.id = pid)).map (fun q => q.content) := by
  induction l1 with
  | nil =>
    intro l2 h pid
    cases l2 with
    | nil => rfl
    | cons b l2 => simp at h
  | cons a l1 ih =>
    intro l2 h pid
    cases l2 with
    | nil => simp at h
    | cons b l2 =>
      simp only [List.map_cons, List.cons.injEq] at h
      obtain ⟨hab, htail⟩ := h
      have hid : a.id = b.id := congrArg Prod.fst hab
      have hcont : a.content = b.content := congrArg Prod.snd hab
      by_cases hp : a.id = pid
      · have hpb : b.id = pid := hid ▸ hp
        rw [List.find?_cons_of_pos _ (by simp [hp]),
          List.find?_cons_of_pos _ (by simp [hpb])]
        simp [hcont]
      · have hpb : ¬b.id = pid := hid ▸ hp
        rw [List.find?_cons_of_neg _ (by simp [hp]),
          List.find?_cons_of_neg _ (by simp [hpb])]
        exact ih l2 htail pid

theorem lastWrite_congr (ps1 ps2 : List DocPoint)
    (h : ps1.map (fun p => (p.id, p.content)) = ps2.map (fun p => (p.id, p.content)))
    (pid : String) : lastWrite ps1 pid = lastWrite ps2 pid := by
  unfold lastWrite
  refine findContent_proj_congr ps1.reverse ps2.reverse ?_ pid
  rw [List.map_reverse, List.map_reverse, h]

/-- C5: re-running `processFile` on an unchanged file (same path and body,
possibly a different timestamp and a fresh embedding call) produces the
same chunk ids (`filePath + '-' + i`) and the same content per id; the
second batch upsert overwrites instead of inserting: the stored id
multiset is unchanged, the index size after the second run equals the
size after the first, and every id maps to the same stored content. -/
theorem processFile_idempotent (store : List DocPoint)
    (filePath relPath sect title now1 now2 : String) (body : List MToken)
    (emb1 emb2 : List Char → List Int) :
    let ps1 := processFilePoints filePath relPath sect title now1 body emb1
    let ps2 := processFilePoints filePath relPath sect title now2 body emb2
    let st1 := upsertBatch store ps1
    let st2 := upsertBatch st1 ps2
    ps1.map (fun p => p.id) = ps2.map (fun p => p.id) ∧
    ps1.map (fun p => p.content) = ps2.map (fun p => p.content) ∧
    st2.map (fun p => p.id) = st1.map (fun p => p.id) ∧
    st2.length = st1.length ∧
    ∀ pid, findContent st2 pid = findContent st1 pid := by
  intro ps1 ps2 st1 st2
  have hpair : ps1.map (fun p => (p.id, p.content)) = ps2.map (fun p => (p.id, p.content)) := by
    show (processFilePoints filePath relPath sect title now1 body emb1).map _ =
      (processFilePoints filePath relPath sect title now2 body emb2).map _
    unfold processFilePoints
    rw [List.map_map, List.map_map]
    rfl
  have hids : ps1.map (fun p => p.id) = ps2.map (fun p => p.id) := by
    show (processFilePoints filePath relPath sect title now1 body emb1).map _ =
      (processFilePoints filePath relPath sect title now2 body emb2).map _
    unfold processFilePoints
    rw [List.map_map, List.map_map]
    rfl
  have hcont : ps1.map (fun p => p.content) = ps2.map (fun p => p.content) := by
    show (processFilePoints filePath relPath sect title now1 body emb1).map _ =
      (processFilePoints filePath relPath sect title now2 body emb2).map _
    unfold processFilePoints
    rw [List.map_map, List.map_map]
    rfl
  have hsub : ∀ p ∈ ps2, p.id ∈ st1.map (fun q => q.id) := by
    intro p hp
    refine mem_ids_upsertBatch ps1 store p.id (Or.inr ?_)
    rw [hids]
    exact List.mem_map.mpr ⟨p, hp, rfl⟩
  have hstids : st2.map (fun p => p.id) = st1.map (fun p => p.id) :=
    upsertBatch_ids ps2 st1 hsub
  refine ⟨hids, hcont, hstids, ?_, ?_⟩
  · have := congrArg List.length hstids
    simpa using this
  · intro pid
    rw [show st2 = upsertBatch st1 ps2 from rfl, findContent_upsertBatch ps2 st1 pid]
    cases hl : lastWrite ps2 pid with
    | none => rfl
    | some c =>
      have h1 : lastWrite ps1 pid = some c := by
        rw [lastWrite_congr ps1 ps2 hpair pid, hl]
      rw [show st1 = upsertBatch store ps1 from rfl, findContent_upsertBatch ps1 store pid, h1]

/-- C8 witness: a one-chunk store, both the success and the failure path. -/
theorem fetchSection_behavior_witness :
    fetchSectionHandler [sectionCexPoint] none "s" =
      .ok (([sectionCexPoint].filter (matchesSection (lastPathSegment "s"))).map
        toSectionDoc) ∧
    fetchSectionHandler [sectionCexPoint] (some "boom") "s" =
      .error ("Failed to fetch section " ++ lastPathSegment "s" ++ ": " ++ "boom") :=
  fetchSection_behavior [sectionCexPoint] "s" "boom" (by decide)

end DocsRag




